import Mathlib

/-!
Verification of the canvas/tool/history core of the raster paint editor.
The Python modules are shallowly embedded: a QImage in Format_RGB32 becomes a
width, a height and a row-major list of packed 32-bit pixel words; the deques
of HistoryManager become lists with the newest entry at the head; QTransform
pan/zoom coordinates become exact rationals.
-/

namespace AIPaint

/-- A packed 32-bit pixel buffer (QImage in Format_RGB32): width, height and
row-major pixel words, one natural number below 2^32 per pixel. A well-formed
buffer has data.length = width * height (stride is exactly 4 * width bytes
for 32-bit formats). -/
structure Image where
  width : Nat
  height : Nat
  data : List Nat
deriving DecidableEq

/-- collections.deque with maxlen = cap, newest element at the HEAD of our
list: append pushes at the head and discards the oldest (last) element when
the deque is already full; a deque with maxlen = 0 keeps nothing. -/
def dqPush (cap : Nat) (stack : List Image) (x : Image) : List Image :=
  if cap = 0 then [] else x :: stack.take (cap - 1)

/-- State of history.HistoryManager: the capacity max_history and the two
deques. Stack tops (most recent entries) are list heads. -/
structure HistoryState where
  maxlen : Nat
  undo_stack : List Image
  redo_stack : List Image
deriving DecidableEq

/-- HistoryManager.__init__ (max_history is 30 at the only construction site,
Canvas.__init__). -/
def mkHistory (maxlen : Nat) : HistoryState := ⟨maxlen, [], []⟩

/-- HistoryManager.clear: empties both deques. -/
def clearHistory (m : HistoryState) : HistoryState := ⟨m.maxlen, [], []⟩

/-- HistoryManager.add_state: append a copy of the image to the undo deque
(evicting the oldest entry when the deque is full) and clear the redo deque. -/
def addState (m : HistoryState) (image : Image) : HistoryState :=
  ⟨m.maxlen, dqPush m.maxlen m.undo_stack image, []⟩

/-- HistoryManager.can_undo: len(undo_stack) > 0. -/
def canUndo (m : HistoryState) : Bool := decide (0 < m.undo_stack.length)

/-- HistoryManager.can_redo: len(redo_stack) > 0. -/
def canRedo (m : HistoryState) : Bool := decide (0 < m.redo_stack.length)

/-- HistoryManager.undo: None when the undo deque is empty (can_undo is
false); otherwise append a copy of current_image to the redo deque and pop
and return the newest undo entry. -/
def histUndo (m : HistoryState) (current_image : Image) :
    Option Image × HistoryState :=
  match m.undo_stack with
  | [] => (none, m)
  | u :: rest =>
    (some u, ⟨m.maxlen, rest, dqPush m.maxlen m.redo_stack current_image⟩)

/-- HistoryManager.redo: None when the redo deque is empty (can_redo is
false); otherwise append a copy of current_image to the undo deque and pop
and return the newest redo entry. -/
def histRedo (m : HistoryState) (current_image : Image) :
    Option Image × HistoryState :=
  match m.redo_stack with
  | [] => (none, m)
  | r :: rest =>
    (some r, ⟨m.maxlen, dqPush m.maxlen m.undo_stack current_image, rest⟩)

/-- A sequence of add_state calls, oldest state first. -/
def recordAll (m : HistoryState) (states : List Image) : HistoryState :=
  states.foldl addState m

/-- The drawing-relevant state of the Canvas widget. pan_offset and
zoom_factor are exact rationals standing for the float pan/zoom pair from
which _update_transform rebuilds the QTransform. -/
structure CanvasState where
  image : Image
  image_width : Int
  image_height : Int
  image_path : Option String
  zoom_factor : ℚ
  pan_offset : ℚ × ℚ
  panning : Bool
  spacebar_panning_active : Bool
  last_pan_point : ℚ × ℚ
  drawing : Bool
  history : HistoryState
deriving DecidableEq

/-- Forward map of the transform built by Canvas._update_transform
(translate by pan_offset, then scale by zoom_factor): a point is first
scaled, then translated, so screen = pan_offset + image * zoom. -/
def to_screen (c : CanvasState) (p : ℚ × ℚ) : ℚ × ℚ :=
  (c.pan_offset.1 + p.1 * c.zoom_factor, c.pan_offset.2 + p.2 * c.zoom_factor)

/-- The inverse map self.transform.inverted()[0].map: screen to image
coordinates, image = (screen - pan_offset) / zoom. -/
def to_image (c : CanvasState) (p : ℚ × ℚ) : ℚ × ℚ :=
  ((p.1 - c.pan_offset.1) / c.zoom_factor, (p.2 - c.pan_offset.2) / c.zoom_factor)

/-- Qt.GlobalColor.white as a packed RGB32 word 0xffffffff. -/
def whiteRGB : Nat := 4294967295

/-- QImage(w, h, Format_RGB32) followed by fill(color). An invalid size
(w < 1 or h < 1) yields the null image: width 0, height 0, no pixel data,
and fill on a null image is a no-op. -/
def mkImageFilled (w h : Int) (color : Nat) : Image :=
  if w < 1 ∨ h < 1 then ⟨0, 0, []⟩
  else ⟨w.toNat, h.toNat, List.replicate (w.toNat * h.toNat) color⟩

/-- The image built inside Canvas.set_size: a white w times h canvas with the
old image drawn on top at the origin by QPainter.drawImage(0, 0, self.image),
clipped to the new bounds. -/
def blitResized (w h : Nat) (old : Image) : Image :=
  ⟨w, h, (List.range (h * w)).map fun i =>
    if i % w < old.width ∧ i / w < old.height
    then old.data.getD ((i / w) * old.width + i % w) 0
    else whiteRGB⟩

/-- Canvas.add_history_state: push the current image on the undo stack. -/
def add_history_state (c : CanvasState) : CanvasState :=
  { c with history := addState c.history c.image }

/-- Canvas.set_size: silently return when w < 1 or h < 1; otherwise record
history, replace the image by the blitted resize, and reset pan and zoom. -/
def set_size (c : CanvasState) (w h : Int) : CanvasState :=
  if w < 1 ∨ h < 1 then c
  else
    let c1 := add_history_state c
    { c1 with
      image := blitResized w.toNat h.toNat c1.image
      image_width := w
      image_height := h
      zoom_factor := 1
      pan_offset := (0, 0) }

/-- Canvas.new_image: unconditionally replaces the image with a fresh filled
QImage (no dimension check), forgets the file path and clears history. It
does NOT touch zoom_factor or pan_offset. -/
def new_image (c : CanvasState) (w h : Int) (color : Nat) : CanvasState :=
  { c with
    image := mkImageFilled w h color
    image_width := w
    image_height := h
    image_path := none
    history := clearHistory c.history }

/-- Canvas.load_image: the platform decoder result is the loaded parameter
(none on a failed QImage.load). On success the converted image replaces the
buffer, the path is remembered, history is cleared and the view is reset;
on failure nothing changes and False is returned. -/
def load_image (c : CanvasState) (file_path : String) (loaded : Option Image) :
    CanvasState × Bool :=
  match loaded with
  | some img =>
    ({ c with
        image := img
        image_width := (img.width : Int)
        image_height := (img.height : Int)
        image_path := some file_path
        history := clearHistory c.history
        zoom_factor := 1
        pan_offset := (0, 0) }, true)
  | none => (c, false)

/-- Body of Canvas.wheelEvent once the multiplier is chosen: rescale the zoom
factor, clamp it to the interval from 0.1 to 10.0, then recompute pan so that
the image point previously under view_pos (computed with the OLD transform,
since _update_transform runs only at the end) stays under view_pos. -/
def wheelZoomAt (c : CanvasState) (view_pos : ℚ × ℚ) (mult : ℚ) : CanvasState :=
  let z := max (1/10 : ℚ) (min (c.zoom_factor * mult) 10)
  let image_pos_before_zoom := to_image c view_pos
  { c with
    zoom_factor := z
    pan_offset := (view_pos.1 - image_pos_before_zoom.1 * z,
                   view_pos.2 - image_pos_before_zoom.2 * z) }

/-- Canvas.wheelEvent: scrolling up multiplies the zoom by 1.15, anything
else by 0.85, then proceeds as wheelZoomAt. -/
def wheelEvent (c : CanvasState) (view_pos : ℚ × ℚ) (angleDeltaY : Int) :
    CanvasState :=
  wheelZoomAt c view_pos (if 0 < angleDeltaY then 23/20 else 17/20)

/-- Qt qRound: round to the nearest integer, halves away from zero (applied
coordinatewise when the inverted QTransform maps the integer event position
to an integer QPoint). -/
def qRound (x : ℚ) : Int := if 0 ≤ x then ⌊x + 1/2⌋ else -⌊-x + 1/2⌋

inductive MouseButton
  | left
  | middle
  | right
deriving DecidableEq

/-- Canvas.mousePressEvent. The active tool is the function
toolAct : current image → image-space click point → (mutated image, _drawing
flag), the shape shared by the activate method of every tool. Middle button,
or left button while spacebar panning is active, starts a pan gesture;
otherwise a left button press records a history snapshot, maps the event
position through the inverted transform and activates the tool. -/
def mousePressEvent (c : CanvasState) (button : MouseButton) (pos : ℚ × ℚ)
    (toolAct : Image → Int × Int → Image × Bool) : CanvasState :=
  if button = MouseButton.middle ∨
      (c.spacebar_panning_active = true ∧ button = MouseButton.left) then
    { c with panning := true, last_pan_point := pos }
  else if button = MouseButton.left then
    let c1 := add_history_state c
    let ip := to_image c pos
    let res := toolAct c1.image (qRound ip.1, qRound ip.2)
    { c1 with image := res.1, drawing := if res.2 then true else c1.drawing }
  else
    c

/-- A concrete small canvas used by the concrete instances below. -/
def canvas0 : CanvasState :=
  { image := ⟨2, 2, [0, 0, 0, 0]⟩
    image_width := 2
    image_height := 2
    image_path := none
    zoom_factor := 1
    pan_offset := (0, 0)
    panning := false
    spacebar_panning_active := false
    last_pan_point := (0, 0)
    drawing := false
    history := mkHistory 30 }

/-- canvas0 after the user has zoomed and panned. -/
def canvasZoomed : CanvasState :=
  { canvas0 with zoom_factor := 2, pan_offset := (5, 7) }

/-- Tiny one-pixel sample buffers for concrete instances. -/
def sampleImg (k : Nat) : Image := ⟨1, 1, [k]⟩

section HistoryProofs

lemma dqPush_of_pos {cap : Nat} (h : cap ≠ 0) (stack : List Image) (x : Image) :
    dqPush cap stack x = x :: stack.take (cap - 1) := by
  simp [dqPush, h]

/-- C2: add_state followed by undo returns exactly the recorded buffer and
pushes the passed current buffer on the redo deque, so that a subsequent redo
returns that current buffer; undo on an empty undo deque and redo on an
empty redo deque return none and leave the manager untouched. The capacity
hypothesis holds for every manager the program builds (max_history is 30). -/
theorem record_undo_redo_roundtrip (m : HistoryState) (s cur x : Image)
    (hcap : 0 < m.maxlen) :
    (histUndo (addState m s) cur).1 = some s ∧
    (histRedo (histUndo (addState m s) cur).2 x).1 = some cur ∧
    (∀ (m' : HistoryState) (c : Image), m'.undo_stack = [] →
      histUndo m' c = (none, m')) ∧
    (∀ (m' : HistoryState) (c : Image), m'.redo_stack = [] →
      histRedo m' c = (none, m')) := by
  have h0 : m.maxlen ≠ 0 := Nat.pos_iff_ne_zero.mp hcap
  refine ⟨?_, ?_, ?_, ?_⟩
  · simp [addState, dqPush_of_pos h0, histUndo]
  · simp [addState, dqPush_of_pos h0, histUndo, histRedo]
  · intro m' c h
    obtain ⟨cap, u, r⟩ := m'
    simp only at h
    subst h
    rfl
  · intro m' c h
    obtain ⟨cap, u, r⟩ := m'
    simp only at h
    subst h
    rfl

theorem record_undo_redo_roundtrip_witness :
    0 < (mkHistory 30).maxlen ∧
    ((histUndo (addState (mkHistory 30) (sampleImg 0)) (sampleImg 1)).1
        = some (sampleImg 0) ∧
      (histRedo (histUndo (addState (mkHistory 30) (sampleImg 0))
          (sampleImg 1)).2 (sampleImg 2)).1 = some (sampleImg 1) ∧
      (∀ (m' : HistoryState) (c : Image), m'.undo_stack = [] →
        histUndo m' c = (none, m')) ∧
      (∀ (m' : HistoryState) (c : Image), m'.redo_stack = [] →
        histRedo m' c = (none, m'))) :=
  ⟨by decide,
    record_undo_redo_roundtrip (mkHistory 30) (sampleImg 0) (sampleImg 1)
      (sampleImg 2) (by decide)⟩

lemma take_append_take (A B : List Image) (n : Nat) :
    (A ++ B.take n).take n = (A ++ B).take n := by
  rw [List.take_append_eq_append_take, List.take_append_eq_append_take,
    List.take_take, Nat.min_eq_left (Nat.sub_le n A.length)]

lemma recordAll_undo_stack :
    ∀ (states : List Image) (cap : Nat) (u r : List Image), u.length ≤ cap →
      (recordAll ⟨cap, u, r⟩ states).undo_stack
        = (states.reverse ++ u).take cap := by
  intro states
  induction states with
  | nil =>
    intro cap u r hu
    simp [recordAll, List.take_of_length_le hu]
  | cons s rest ih =>
    intro cap u r hu
    have hstep : recordAll ⟨cap, u, r⟩ (s :: rest)
        = recordAll (addState ⟨cap, u, r⟩ s) rest := rfl
    rcases Nat.eq_zero_or_pos cap with hc | hc
    · subst hc
      rw [hstep]
      have : addState ⟨0, u, r⟩ s = ⟨0, [], []⟩ := by simp [addState, dqPush]
      rw [this, ih 0 [] [] (by simp)]
      simp
    · have h0 : cap ≠ 0 := Nat.pos_iff_ne_zero.mp hc
      rw [hstep]
      have haddeq : addState ⟨cap, u, r⟩ s = ⟨cap, s :: u.take (cap - 1), []⟩ := by
        simp [addState, dqPush_of_pos h0]
      rw [haddeq]
      have hlen : (s :: u.take (cap - 1)).length ≤ cap := by
        simp only [List.length_cons, List.length_take]
        omega
      rw [ih cap (s :: u.take (cap - 1)) [] hlen]
      have hcons : s :: u.take (cap - 1) = (s :: u).take cap := by
        obtain ⟨k, rfl⟩ : ∃ k, cap = k + 1 := ⟨cap - 1, by omega⟩
        simp
      rw [hcons, take_append_take]
      simp [List.append_assoc]

/-- C4: recording N + 5 states on a manager of capacity N leaves exactly the
last N recorded states on the undo deque (newest at the head of the list,
the 5 oldest evicted first). -/
theorem history_capacity_fifo (N : Nat) (states : List Image)
    (hlen : states.length = N + 5) :
    (recordAll (mkHistory N) states).undo_stack = states.reverse.take N ∧
    (recordAll (mkHistory N) states).undo_stack.length = N := by
  have h := recordAll_undo_stack states N [] [] (by simp)
  have h' : (recordAll (mkHistory N) states).undo_stack
      = states.reverse.take N := by
    simpa [mkHistory] using h
  refine ⟨h', ?_⟩
  rw [h']
  simp only [List.length_take, List.length_reverse, hlen]
  omega

theorem history_capacity_fifo_witness :
    ([sampleImg 0, sampleImg 1, sampleImg 2, sampleImg 3, sampleImg 4,
        sampleImg 5] : List Image).length = 1 + 5 ∧
    ((recordAll (mkHistory 1) [sampleImg 0, sampleImg 1, sampleImg 2,
        sampleImg 3, sampleImg 4, sampleImg 5]).undo_stack
      = ([sampleImg 0, sampleImg 1, sampleImg 2, sampleImg 3, sampleImg 4,
          sampleImg 5] : List Image).reverse.take 1 ∧
      (recordAll (mkHistory 1) [sampleImg 0, sampleImg 1, sampleImg 2,
        sampleImg 3, sampleImg 4, sampleImg 5]).undo_stack.length = 1) :=
  ⟨by decide,
    history_capacity_fifo 1 [sampleImg 0, sampleImg 1, sampleImg 2,
      sampleImg 3, sampleImg 4, sampleImg 5] (by decide)⟩

/-- C5: every add_state call empties the redo deque, so can_redo is false
immediately after any record, whatever the previous redo contents were. -/
theorem record_clears_redo (m : HistoryState) (image : Image) :
    (addState m image).redo_stack = [] ∧ canRedo (addState m image) = false :=
  ⟨rfl, rfl⟩

end HistoryProofs

section ViewProofs

/-- C8: for any pan offset and any zoom factor in the clamped range, the
forward and inverse coordinate maps are mutual inverses (exactly, over the
rationals that stand for the floating-point coordinates). -/
theorem transform_roundtrip (c : CanvasState) (p : ℚ × ℚ)
    (h1 : 1/10 ≤ c.zoom_factor) (_h2 : c.zoom_factor ≤ 10) :
    to_screen c (to_image c p) = p ∧ to_image c (to_screen c p) = p := by
  have hz : c.zoom_factor ≠ 0 := by
    intro h
    rw [h] at h1
    norm_num at h1
  constructor
  · simp only [to_screen, to_image, Prod.ext_iff]
    constructor <;> field_simp
  · simp only [to_screen, to_image, Prod.ext_iff]
    constructor <;> field_simp

lemma tenth_le_zoomed : 1/10 ≤ canvasZoomed.zoom_factor := by
  norm_num [canvasZoomed, canvas0]

lemma zoomed_le_ten : canvasZoomed.zoom_factor ≤ 10 := by
  norm_num [canvasZoomed, canvas0]

theorem transform_roundtrip_witness :
    1/10 ≤ canvasZoomed.zoom_factor ∧ canvasZoomed.zoom_factor ≤ 10 ∧
    (to_screen canvasZoomed (to_image canvasZoomed (9, 11)) = (9, 11) ∧
      to_image canvasZoomed (to_screen canvasZoomed (9, 11)) = (9, 11)) :=
  ⟨tenth_le_zoomed, zoomed_le_ten,
    transform_roundtrip canvasZoomed (9, 11) tenth_le_zoomed zoomed_le_ten⟩

/-- C7: a wheel zoom multiplies the zoom factor by the chosen multiplier,
clamps the result into the interval from 0.1 to 10.0, and recomputes the pan
offset so that the image point under the anchor is unchanged: to_image at
the anchor is the same before and after; wheelEvent is this operation with
multiplier 1.15 on scroll up and 0.85 otherwise. -/
theorem wheel_zoom_to_cursor (c : CanvasState) (anchor : ℚ × ℚ) (mult : ℚ) :
    (wheelZoomAt c anchor mult).zoom_factor
        = max (1/10) (min (c.zoom_factor * mult) 10) ∧
    1/10 ≤ (wheelZoomAt c anchor mult).zoom_factor ∧
    (wheelZoomAt c anchor mult).zoom_factor ≤ 10 ∧
    to_image (wheelZoomAt c anchor mult) anchor = to_image c anchor ∧
    (∀ delta : Int, wheelEvent c anchor delta
        = wheelZoomAt c anchor (if 0 < delta then 23/20 else 17/20)) := by
  refine ⟨rfl, le_max_left _ _, max_le (by norm_num) (min_le_right _ _),
    ?_, fun _ => rfl⟩
  have hz : max (1/10 : ℚ) (min (c.zoom_factor * mult) 10) ≠ 0 := by
    have : (0 : ℚ) < 1/10 := by norm_num
    exact ne_of_gt (lt_of_lt_of_le this (le_max_left _ _))
  simp only [wheelZoomAt, to_image, Prod.ext_iff]
  constructor
  · rw [sub_sub_cancel, mul_div_assoc, div_self hz, mul_one]
  · rw [sub_sub_cancel, mul_div_assoc, div_self hz, mul_one]

end ViewProofs

section CanvasProofs

/-- Counterexample to C3: Canvas.new_image performs no dimension validation;
with width 0 it replaces the pixel buffer by the null image, so the buffer is
NOT left unchanged as the claim states. -/
theorem new_image_invalid_changes_buffer :
    (new_image canvas0 0 5 7).image ≠ canvas0.image := by decide

/-- C3 as amended: set_size rejects w < 1 or h < 1 by returning with the
whole canvas state (buffer, history, view) unchanged but produces no
boolean/failure result, and new_image does not validate at all: it
unconditionally replaces the buffer (the null 0 by 0 image results from
non-positive dimensions) and clears the history. -/
theorem resize_reject_silent (c : CanvasState) (w h : Int)
    (hw : w < 1 ∨ h < 1) :
    set_size c w h = c ∧
    (∀ color : Nat,
      (new_image c w h color).image = ⟨0, 0, []⟩ ∧
      (new_image c w h color).history.undo_stack = [] ∧
      (new_image c w h color).history.redo_stack = []) := by
  refine ⟨?_, ?_⟩
  · simp [set_size, hw]
  · intro color
    refine ⟨?_, rfl, rfl⟩
    simp [new_image, mkImageFilled, hw]

theorem resize_reject_silent_witness :
    ((0 : Int) < 1 ∨ (5 : Int) < 1) ∧
    (set_size canvas0 0 5 = canvas0 ∧
      (∀ color : Nat,
        (new_image canvas0 0 5 color).image = ⟨0, 0, []⟩ ∧
        (new_image canvas0 0 5 color).history.undo_stack = [] ∧
        (new_image canvas0 0 5 color).history.redo_stack = [])) :=
  ⟨by decide, resize_reject_silent canvas0 0 5 (by decide)⟩

/-- Counterexample to C6: Canvas.new_image does not reset the view transform;
starting from a canvas with zoom factor 2 and pan (5, 7), creating a new
image leaves the zoom factor at 2 instead of 1. -/
theorem new_image_view_not_reset :
    (new_image canvasZoomed 4 4 whiteRGB).zoom_factor ≠ 1 ∧
    (new_image canvasZoomed 4 4 whiteRGB).pan_offset ≠ (0, 0) := by
  constructor <;> decide

/-- C6 as amended: set_size (with accepted dimensions) and a successful
load_image reset the view transform to identity (zoom 1, pan (0, 0)), while
new_image leaves zoom and pan exactly as they were. -/
theorem view_reset_after_resize_load (c : CanvasState) (w h : Int)
    (hw : 1 ≤ w) (hh : 1 ≤ h) :
    ((set_size c w h).zoom_factor = 1 ∧ (set_size c w h).pan_offset = (0, 0)) ∧
    (∀ (path : String) (img : Image),
      (load_image c path (some img)).1.zoom_factor = 1 ∧
      (load_image c path (some img)).1.pan_offset = (0, 0)) ∧
    (∀ (w' h' : Int) (color : Nat),
      (new_image c w' h' color).zoom_factor = c.zoom_factor ∧
      (new_image c w' h' color).pan_offset = c.pan_offset) := by
  have hcond : ¬ (w < 1 ∨ h < 1) := by omega
  refine ⟨?_, fun path img => ⟨rfl, rfl⟩, fun w' h' color => ⟨rfl, rfl⟩⟩
  constructor <;> simp [set_size, hcond]

theorem view_reset_after_resize_load_witness :
    (1 : Int) ≤ 3 ∧ (1 : Int) ≤ 2 ∧
    (((set_size canvasZoomed 3 2).zoom_factor = 1 ∧
        (set_size canvasZoomed 3 2).pan_offset = (0, 0)) ∧
      (∀ (path : String) (img : Image),
        (load_image canvasZoomed path (some img)).1.zoom_factor = 1 ∧
        (load_image canvasZoomed path (some img)).1.pan_offset = (0, 0)) ∧
      (∀ (w' h' : Int) (color : Nat),
        (new_image canvasZoomed w' h' color).zoom_factor
            = canvasZoomed.zoom_factor ∧
        (new_image canvasZoomed w' h' color).pan_offset
            = canvasZoomed.pan_offset)) :=
  ⟨by decide, by decide,
    view_reset_after_resize_load canvasZoomed 3 2 (by decide) (by decide)⟩

/-- C10: a left-button press that is not a pan gesture (spacebar panning
inactive; the button is left, not middle) pushes a snapshot pixel-identical
to the current buffer on the undo stack and clears the redo stack, whatever
the active tool then does to the pixels (the snapshot is taken before the
tool activation runs, so this holds even for a tool action that changes
nothing). -/
theorem left_click_records_snapshot (c : CanvasState) (pos : ℚ × ℚ)
    (toolAct : Image → Int × Int → Image × Bool)
    (hspace : c.spacebar_panning_active = false)
    (hcap : 0 < c.history.maxlen) :
    (mousePressEvent c MouseButton.left pos toolAct).history.undo_stack.head?
        = some c.image ∧
    (mousePressEvent c MouseButton.left pos toolAct).history.redo_stack
        = [] := by
  have h0 : c.history.maxlen ≠ 0 := Nat.pos_iff_ne_zero.mp hcap
  simp [mousePressEvent, hspace, add_history_state, addState, dqPush_of_pos h0]

theorem left_click_records_snapshot_witness :
    canvas0.spacebar_panning_active = false ∧ 0 < canvas0.history.maxlen ∧
    ((mousePressEvent canvas0 MouseButton.left (1, 1)
        (fun img _ => (img, false))).history.undo_stack.head?
          = some canvas0.image ∧
      (mousePressEvent canvas0 MouseButton.left (1, 1)
        (fun img _ => (img, false))).history.redo_stack = []) :=
  ⟨rfl, by decide,
    left_click_records_snapshot canvas0 (1, 1) (fun img _ => (img, false))
      rfl (by decide)⟩

end CanvasProofs

section FillTool

/-- Integer pixel coordinates (Python ints go negative transiently when the
neighbor offsets of a border pixel are formed). -/
abbrev Pt := Int × Int

/-- image.rect().contains(p) for a w by h image. -/
def inBounds (w h : Nat) (p : Pt) : Prop :=
  0 ≤ p.1 ∧ p.1 < (w : Int) ∧ 0 ≤ p.2 ∧ p.2 < (h : Int)

instance (w h : Nat) (p : Pt) : Decidable (inBounds w h p) := by
  unfold inBounds
  infer_instance

/-- The word offset y * width + x of an in-bounds pixel (the source computes
the byte offset y * bytesPerLine + x * 4; bytesPerLine = 4 * width for the
32-bit formats the tool accepts). -/
def idx (w : Nat) (p : Pt) : Nat := p.2.toNat * w + p.1.toNat

/-- Read the packed 32-bit word of a pixel (image.pixel / struct.unpack_from
on the raw buffer). -/
def pix (w : Nat) (d : List Nat) (p : Pt) : Nat := d.getD (idx w p) 0

/-- The West, East, North, South neighbors, in source order. -/
def nbrs (p : Pt) : List Pt :=
  [(p.1 - 1, p.2), (p.1 + 1, p.2), (p.1, p.2 - 1), (p.1, p.2 + 1)]

/-- One neighbor examination inside the fill loop body: if the neighbor is
within bounds and its current word still equals target, paint it with fillc
(struct.pack_into) and append it to the FIFO work queue. On a well-formed
buffer (length = w * h) the word read always succeeds, which the optional
read makes explicit. -/
def visit (w h target fillc : Nat) (s : List Nat × List Pt) (n : Pt) :
    List Nat × List Pt :=
  if inBounds w h n then
    if s.1[idx w n]? = some target then
      (s.1.set (idx w n) fillc, s.2 ++ [n])
    else s
  else s

lemma countP_set_dec {l : List Nat} {i target fillc : Nat}
    (h : l[i]? = some target) (hf : fillc ≠ target) :
    (l.set i fillc).countP (· == target) + 1 = l.countP (· == target) := by
  induction l generalizing i with
  | nil => simp at h
  | cons a t ih =>
    cases i with
    | zero =>
      simp only [List.getElem?_cons_zero, Option.some.injEq] at h
      subst h
      simp only [List.set_cons_zero, List.countP_cons]
      have ha : (a == a) = true := beq_self_eq_true a
      have hfa : (fillc == a) = false := beq_eq_false_iff_ne.mpr hf
      simp [ha, hfa]
    | succ j =>
      simp only [List.getElem?_cons_succ] at h
      simp only [List.set_cons_succ, List.countP_cons]
      have := ih h
      omega

lemma visit_measure (w h target fillc : Nat) (hne : fillc ≠ target)
    (s : List Nat × List Pt) (n : Pt) :
    5 * (visit w h target fillc s n).1.countP (· == target)
        + (visit w h target fillc s n).2.length
      ≤ 5 * s.1.countP (· == target) + s.2.length := by
  unfold visit
  split
  · split
    · rename_i hb hread
      simp only [List.length_append, List.length_cons, List.length_nil]
      have := countP_set_dec hread hne
      omega
    · exact le_refl _
  · exact le_refl _

lemma foldVisit_measure (w h target fillc : Nat) (hne : fillc ≠ target) :
    ∀ (ns : List Pt) (s : List Nat × List Pt),
      5 * (ns.foldl (visit w h target fillc) s).1.countP (· == target)
          + (ns.foldl (visit w h target fillc) s).2.length
        ≤ 5 * s.1.countP (· == target) + s.2.length := by
  intro ns
  induction ns with
  | nil => intro s; simp
  | cons n rest ih =>
    intro s
    calc 5 * ((rest.foldl (visit w h target fillc)
            (visit w h target fillc s n)).1.countP (· == target))
          + (rest.foldl (visit w h target fillc)
            (visit w h target fillc s n)).2.length
        ≤ 5 * (visit w h target fillc s n).1.countP (· == target)
            + (visit w h target fillc s n).2.length :=
          ih (visit w h target fillc s n)
      _ ≤ 5 * s.1.countP (· == target) + s.2.length :=
          visit_measure w h target fillc hne s n

/-- The while loop of FillTool.activate: pop the queue head and examine its
four neighbors. That the fill word differs from the target word (established
by activate before the loop starts) is exactly what makes painting double as
the visited mark and the loop terminate. -/
def fillLoop (w h target fillc : Nat) (hne : fillc ≠ target) :
    List Nat → List Pt → List Nat
  | d, [] => d
  | d, p :: qs =>
    fillLoop w h target fillc hne
      ((nbrs p).foldl (visit w h target fillc) (d, qs)).1
      ((nbrs p).foldl (visit w h target fillc) (d, qs)).2
termination_by d q => 5 * d.countP (· == target) + q.length
decreasing_by
  have hm := foldVisit_measure w h target fillc hne (nbrs p) (d, qs)
  simp only [List.length_cons]
  simp only [Prod.fst, Prod.snd] at hm
  omega

/-- FillTool.activate. The canvas creates and loads images only in
Format_RGB32, so the 32-bit format guard always passes. Out-of-bounds click:
deactivate and return. target_rgb equal to fill_rgb: deactivate and return.
Otherwise paint the start pixel, run the queue to completion and deactivate.
The Bool result is the _drawing flag: set by the BaseTool activate and
cleared again by deactivate on every exit path. -/
def fillToolActivate (img : Image) (image_pos : Pt) (fill_rgb : Nat) :
    Image × Bool :=
  if ¬ inBounds img.width img.height image_pos then (img, false)
  else
    if h : pix img.width img.data image_pos = fill_rgb then (img, false)
    else
      (⟨img.width, img.height,
        fillLoop img.width img.height (pix img.width img.data image_pos)
          fill_rgb (Ne.symm h)
          (img.data.set (idx img.width image_pos) fill_rgb) [image_pos]⟩,
        false)

/-- q is one of the four orthogonal neighbors of p. -/
def fillAdj (p q : Pt) : Prop := q ∈ nbrs p

/-- The 4-connected component the spec speaks about: the points reachable
from s through chains of in-bounds orthogonal neighbors whose color in the
buffer d is target. -/
def Reach (w h : Nat) (d : List Nat) (target : Nat) (s p : Pt) : Prop :=
  Relation.ReflTransGen
    (fun a b => fillAdj a b ∧ inBounds w h b ∧ pix w d b = target) s p

section FillHelpers

lemma mulw_add_inj {w a b c e : Nat} (ha : a < w) (hc : c < w)
    (h : b * w + a = e * w + c) : a = c ∧ b = e := by
  have hw : 0 < w := lt_of_le_of_lt (Nat.zero_le a) ha
  have hmod : a = c := by
    have h1 : (w * b + a) % w = (w * e + c) % w := by
      rw [Nat.mul_comm w b, Nat.mul_comm w e, h]
    rwa [Nat.mul_add_mod, Nat.mul_add_mod, Nat.mod_eq_of_lt ha,
      Nat.mod_eq_of_lt hc] at h1
  have hdiv : b = e := by
    have h1 : (w * b + a) / w = (w * e + c) / w := by
      rw [Nat.mul_comm w b, Nat.mul_comm w e, h]
    rwa [Nat.mul_add_div hw, Nat.mul_add_div hw, Nat.div_eq_of_lt ha,
      Nat.div_eq_of_lt hc, Nat.add_zero, Nat.add_zero] at h1
  exact ⟨hmod, hdiv⟩

lemma idx_inj {w h : Nat} {p q : Pt} (hp : inBounds w h p)
    (hq : inBounds w h q) (heq : idx w p = idx w q) : p = q := by
  unfold inBounds at hp hq
  obtain ⟨hp1, hp2, hp3, hp4⟩ := hp
  obtain ⟨hq1, hq2, hq3, hq4⟩ := hq
  unfold idx at heq
  have hpx : p.1.toNat < w := by omega
  have hqx : q.1.toNat < w := by omega
  obtain ⟨hx, hy⟩ := mulw_add_inj hpx hqx heq
  have h1 : p.1 = q.1 := by omega
  have h2 : p.2 = q.2 := by omega
  exact Prod.ext_iff.mpr ⟨h1, h2⟩

lemma idx_lt {w h : Nat} {p : Pt} (hp : inBounds w h p) : idx w p < w * h := by
  unfold inBounds at hp
  obtain ⟨h1, h2, h3, h4⟩ := hp
  have hx : p.1.toNat < w := by omega
  have hy : p.2.toNat < h := by omega
  unfold idx
  calc p.2.toNat * w + p.1.toNat < p.2.toNat * w + w := by omega
    _ = (p.2.toNat + 1) * w := by ring
    _ ≤ h * w := Nat.mul_le_mul_right w hy
    _ = w * h := Nat.mul_comm h w

lemma pix_set_self {w h : Nat} {d : List Nat} {p : Pt} (hp : inBounds w h p)
    (hd : d.length = w * h) (c : Nat) :
    pix w (d.set (idx w p) c) p = c := by
  have hi : idx w p < d.length := by rw [hd]; exact idx_lt hp
  unfold pix
  rw [List.getD_eq_getElem?_getD, List.getElem?_set_self hi]
  rfl

lemma pix_set_ne {w h : Nat} {d : List Nat} {p n : Pt} (hp : inBounds w h p)
    (hn : inBounds w h n) (hpn : p ≠ n) (c : Nat) :
    pix w (d.set (idx w n) c) p = pix w d p := by
  have hij : idx w n ≠ idx w p :=
    fun hcontra => hpn ((idx_inj hn hp hcontra).symm)
  unfold pix
  rw [List.getD_eq_getElem?_getD, List.getD_eq_getElem?_getD,
    List.getElem?_set_ne hij]

lemma getElem?_eq_pix {w h : Nat} {d : List Nat} {p : Pt}
    (hp : inBounds w h p) (hd : d.length = w * h) :
    d[idx w p]? = some (pix w d p) := by
  have hi : idx w p < d.length := by rw [hd]; exact idx_lt hp
  rw [List.getElem?_eq_getElem hi]
  unfold pix
  rw [List.getD_eq_getElem?_getD, List.getElem?_eq_getElem hi]
  rfl

lemma reach_inBounds {w h target : Nat} {d0 : List Nat} {start p : Pt}
    (hs : inBounds w h start) (hr : Reach w h d0 target start p) :
    inBounds w h p := by
  induction hr with
  | refl => exact hs
  | tail _ hstep _ => exact hstep.2.1

lemma visit_eq_paint {w h target fillc : Nat} {d : List Nat} {q : List Pt}
    {n : Pt} (hb : inBounds w h n) (hread : d[idx w n]? = some target) :
    visit w h target fillc (d, q) n = (d.set (idx w n) fillc, q ++ [n]) := by
  simp [visit, hb, hread]

lemma visit_eq_skip {w h target fillc : Nat} {d : List Nat} {q : List Pt}
    {n : Pt} (hb : inBounds w h n) (hread : ¬ d[idx w n]? = some target) :
    visit w h target fillc (d, q) n = (d, q) := by
  simp [visit, hb, hread]

lemma visit_eq_out {w h target fillc : Nat} {d : List Nat} {q : List Pt}
    {n : Pt} (hb : ¬ inBounds w h n) :
    visit w h target fillc (d, q) n = (d, q) := by
  simp [visit, hb]

end FillHelpers

section FillCorrectness

/-- Loop invariant of the flood fill, relative to the original buffer d0,
the start point and the target word; S is the (ghost) set of pixels painted
so far: the buffer is d0 overwritten with fillc exactly on S, S is contained
in the 4-connected component of the start, the queue holds painted pixels
only, and the start pixel is painted. -/
def FillInv (w h target fillc : Nat) (d0 : List Nat) (start : Pt)
    (d : List Nat) (q : List Pt) (S : Pt → Prop) : Prop :=
  d.length = w * h ∧
  (∀ x, S x → pix w d x = fillc) ∧
  (∀ x, inBounds w h x → ¬ S x → pix w d x = pix w d0 x) ∧
  (∀ x, S x → Reach w h d0 target start x) ∧
  (∀ x ∈ q, S x) ∧
  S start

lemma visit_spec {w h target fillc : Nat} {d0 : List Nat} {start : Pt}
    (hne : fillc ≠ target) (hs : inBounds w h start)
    {d : List Nat} {q : List Pt} {S : Pt → Prop} {p n : Pt}
    (hinv : FillInv w h target fillc d0 start d q S)
    (hadj : fillAdj p n) (hp : Reach w h d0 target start p) :
    ∃ S' : Pt → Prop,
      (∀ x, S x → S' x) ∧
      FillInv w h target fillc d0 start
        (visit w h target fillc (d, q) n).1
        (visit w h target fillc (d, q) n).2 S' ∧
      (∀ x ∈ q, x ∈ (visit w h target fillc (d, q) n).2) ∧
      (∀ x, S' x → S x ∨ x ∈ (visit w h target fillc (d, q) n).2) ∧
      (inBounds w h n → pix w d0 n = target → S' n) := by
  obtain ⟨hlen, h1a, h1b, h2, h3, h5⟩ := hinv
  by_cases hb : inBounds w h n
  · by_cases hread : d[idx w n]? = some target
    · -- the neighbor is painted and enqueued
      rw [visit_eq_paint hb hread]
      have hpixn : pix w d n = target := by
        unfold pix
        rw [List.getD_eq_getElem?_getD, hread]
        rfl
      have hnS : ¬ S n := by
        intro hSn
        apply hne
        rw [← h1a n hSn]
        exact hpixn
      have hpix0 : pix w d0 n = target := by
        rw [← h1b n hb hnS]
        exact hpixn
      have hrn : Reach w h d0 target start n :=
        Relation.ReflTransGen.tail hp ⟨hadj, hb, hpix0⟩
      refine ⟨fun x => S x ∨ x = n, fun x hx => Or.inl hx,
        ⟨?_, ?_, ?_, ?_, ?_, Or.inl h5⟩, ?_, ?_, fun _ _ => Or.inr rfl⟩
      · rw [List.length_set]; exact hlen
      · intro x hx
        rcases hx with hSx | hxn
        · have hxb : inBounds w h x := reach_inBounds hs (h2 x hSx)
          have hxne : x ≠ n := fun he => hnS (he ▸ hSx)
          rw [pix_set_ne hxb hb hxne fillc]
          exact h1a x hSx
        · subst hxn
          exact pix_set_self hb hlen fillc
      · intro x hxb hnx
        have hnx1 : ¬ S x := fun hh => hnx (Or.inl hh)
        have hnx2 : x ≠ n := fun hh => hnx (Or.inr hh)
        rw [pix_set_ne hxb hb hnx2 fillc]
        exact h1b x hxb hnx1
      · intro x hx
        rcases hx with hSx | hxn
        · exact h2 x hSx
        · subst hxn; exact hrn
      · intro x hx
        rcases List.mem_append.mp hx with hq | hn1
        · exact Or.inl (h3 x hq)
        · exact Or.inr (List.mem_singleton.mp hn1)
      · intro x hx
        exact List.mem_append_left _ hx
      · intro x hx
        rcases hx with hSx | hxn
        · exact Or.inl hSx
        · subst hxn
          exact Or.inr (List.mem_append_right _ (List.mem_singleton.mpr rfl))
    · -- neighbor skipped: its current word is not target, hence (on the
      -- unmodified part of the buffer) it is either already painted or was
      -- never target-colored
      rw [visit_eq_skip hb hread]
      refine ⟨S, fun x hx => hx, ⟨hlen, h1a, h1b, h2, h3, h5⟩,
        fun x hx => hx, fun x hx => Or.inl hx, ?_⟩
      intro hb2 hpix0
      by_contra hnS
      apply hread
      rw [getElem?_eq_pix hb hlen, h1b n hb hnS, hpix0]
  · rw [visit_eq_out hb]
    exact ⟨S, fun x hx => hx, ⟨hlen, h1a, h1b, h2, h3, h5⟩,
      fun x hx => hx, fun x hx => Or.inl hx, fun hb2 _ => absurd hb2 hb⟩

lemma foldVisit_spec {w h target fillc : Nat} {d0 : List Nat} {start : Pt}
    (hne : fillc ≠ target) (hs : inBounds w h start) (p : Pt) :
    ∀ ns : List Pt, (∀ n ∈ ns, fillAdj p n) →
      ∀ (d : List Nat) (q : List Pt) (S : Pt → Prop),
      FillInv w h target fillc d0 start d q S →
      Reach w h d0 target start p →
      ∃ S' : Pt → Prop,
        (∀ x, S x → S' x) ∧
        FillInv w h target fillc d0 start
          (ns.foldl (visit w h target fillc) (d, q)).1
          (ns.foldl (visit w h target fillc) (d, q)).2 S' ∧
        (∀ x ∈ q, x ∈ (ns.foldl (visit w h target fillc) (d, q)).2) ∧
        (∀ x, S' x → S x ∨ x ∈ (ns.foldl (visit w h target fillc) (d, q)).2) ∧
        (∀ n ∈ ns, inBounds w h n → pix w d0 n = target → S' n) := by
  intro ns
  induction ns with
  | nil =>
    intro _ d q S hinv hp
    exact ⟨S, fun x hx => hx, hinv, fun x hx => hx,
      fun x hx => Or.inl hx, by simp⟩
  | cons n rest ih =>
    intro hns d q S hinv hp
    obtain ⟨S1, hmono1, hinv1, hq1, hnew1, hhand1⟩ :=
      visit_spec hne hs hinv (hns n (List.mem_cons_self n rest)) hp
    obtain ⟨S', hmono2, hinv2, hq2, hnew2, hhand2⟩ :=
      ih (fun m hm => hns m (List.mem_cons_of_mem n hm))
        (visit w h target fillc (d, q) n).1
        (visit w h target fillc (d, q) n).2 S1 hinv1 hp
    refine ⟨S', fun x hx => hmono2 x (hmono1 x hx), hinv2, ?_, ?_, ?_⟩
    · intro x hx
      exact hq2 x (hq1 x hx)
    · intro x hx
      rcases hnew2 x hx with h1 | h1
      · rcases hnew1 x h1 with h0 | h0
        · exact Or.inl h0
        · exact Or.inr (hq2 x h0)
      · exact Or.inr h1
    · intro m hm hmb hmt
      rcases List.mem_cons.mp hm with hm0 | hm0
      · subst hm0
        exact hmono2 m (hhand1 hmb hmt)
      · exact hhand2 m hm0 hmb hmt

lemma fillLoop_nil_spec {w h target fillc : Nat} (hne : fillc ≠ target)
    {d0 : List Nat} {start : Pt} {d : List Nat} {S : Pt → Prop}
    (hinv : FillInv w h target fillc d0 start d [] S)
    (hfront : ∀ x, S x →
      ∀ m ∈ nbrs x, inBounds w h m → pix w d0 m = target → S m) :
    ∀ p, inBounds w h p →
      (Reach w h d0 target start p →
        pix w (fillLoop w h target fillc hne d []) p = fillc) ∧
      (¬ Reach w h d0 target start p →
        pix w (fillLoop w h target fillc hne d []) p = pix w d0 p) := by
  obtain ⟨hlen, h1a, h1b, h2, h3, h5⟩ := hinv
  have hloop : fillLoop w h target fillc hne d [] = d := by rw [fillLoop]
  intro p hp
  have hRS : ∀ x, Reach w h d0 target start x → S x := by
    intro x hr
    induction hr with
    | refl => exact h5
    | tail _ hbc ih => exact hfront _ ih _ hbc.1 hbc.2.1 hbc.2.2
  constructor
  · intro hr
    rw [hloop]
    exact h1a p (hRS p hr)
  · intro hnr
    rw [hloop]
    exact h1b p hp (fun hS => hnr (h2 p hS))

lemma fillLoop_spec {w h target fillc : Nat} (hne : fillc ≠ target)
    {d0 : List Nat} {start : Pt} (hs : inBounds w h start) :
    ∀ (fuel : Nat) (d : List Nat) (q : List Pt) (S : Pt → Prop),
      5 * d.countP (· == target) + q.length ≤ fuel →
      FillInv w h target fillc d0 start d q S →
      (∀ x, S x → x ∉ q →
        ∀ m ∈ nbrs x, inBounds w h m → pix w d0 m = target → S m) →
      ∀ p, inBounds w h p →
        (Reach w h d0 target start p →
          pix w (fillLoop w h target fillc hne d q) p = fillc) ∧
        (¬ Reach w h d0 target start p →
          pix w (fillLoop w h target fillc hne d q) p = pix w d0 p) := by
  intro fuel
  induction fuel with
  | zero =>
    intro d q S hfuel hinv hfront p hp
    have hq : q = [] := by
      cases q with
      | nil => rfl
      | cons a as =>
        exfalso
        simp only [List.length_cons] at hfuel
        omega
    subst hq
    exact fillLoop_nil_spec hne hinv
      (fun x hx => hfront x hx (List.not_mem_nil x)) p hp
  | succ fuelN ih =>
    intro d q S hfuel hinv hfront p hp
    cases q with
    | nil =>
      exact fillLoop_nil_spec hne hinv
        (fun x hx => hfront x hx (List.not_mem_nil x)) p hp
    | cons a qs =>
      obtain ⟨hlen, h1a, h1b, h2, h3, h5⟩ := hinv
      have hSa : S a := h3 a (List.mem_cons_self a qs)
      have hra : Reach w h d0 target start a := h2 a hSa
      have hinvq : FillInv w h target fillc d0 start d qs S :=
        ⟨hlen, h1a, h1b, h2, fun x hx => h3 x (List.mem_cons_of_mem a hx), h5⟩
      obtain ⟨S', hmono, hinv2, hqmono, hnew, hhand⟩ :=
        foldVisit_spec hne hs a (nbrs a) (fun m hm => hm) d qs S hinvq hra
      have hfront2 : ∀ x, S' x →
          x ∉ ((nbrs a).foldl (visit w h target fillc) (d, qs)).2 →
          ∀ m ∈ nbrs x, inBounds w h m → pix w d0 m = target → S' m := by
        intro x hx hxq m hm hmb hmt
        rcases hnew x hx with hSx | hxq2
        · by_cases hxa : x = a
          · subst hxa
            exact hhand m hm hmb hmt
          · have hxqs : x ∉ qs := fun hmem => hxq (hqmono x hmem)
            have hxq0 : x ∉ a :: qs := by
              intro hmem
              rcases List.mem_cons.mp hmem with h0 | h0
              · exact hxa h0
              · exact hxqs h0
            exact hmono m (hfront x hSx hxq0 m hm hmb hmt)
        · exact absurd hxq2 hxq
      have hmeasure := foldVisit_measure w h target fillc hne (nbrs a) (d, qs)
      have hfuel2 :
          5 * ((nbrs a).foldl (visit w h target fillc) (d, qs)).1.countP
              (· == target)
            + ((nbrs a).foldl (visit w h target fillc) (d, qs)).2.length
            ≤ fuelN := by
        simp only [List.length_cons] at hfuel
        simp only [Prod.fst, Prod.snd] at hmeasure
        omega
      have hstep : fillLoop w h target fillc hne d (a :: qs)
          = fillLoop w h target fillc hne
              ((nbrs a).foldl (visit w h target fillc) (d, qs)).1
              ((nbrs a).foldl (visit w h target fillc) (d, qs)).2 := by
        rw [fillLoop]
      rw [hstep]
      exact ih _ _ S' hfuel2 hinv2 hfront2 p hp

/-- C1: activating the Fill tool on a well-formed 32-bit buffer, at an
in-bounds point whose word differs from the fill word, recolors exactly the
4-connected component (chains of in-bounds orthogonal neighbors of the
original target color) containing the activation point, and no other pixel:
every reachable pixel reads back as fill_rgb and every unreachable pixel is
unchanged. In particular a uniformly colored buffer is filled entirely from
any interior point, while a region of the target color touching the
component only diagonally is unreachable and hence not filled. -/
theorem fill_recolors_exactly_component (img : Image) (image_pos : Pt)
    (fill_rgb : Nat) (hlen : img.data.length = img.width * img.height)
    (hb : inBounds img.width img.height image_pos)
    (hne : fill_rgb ≠ pix img.width img.data image_pos) :
    ∀ p, inBounds img.width img.height p →
      (Reach img.width img.height img.data
          (pix img.width img.data image_pos) image_pos p →
        pix img.width (fillToolActivate img image_pos fill_rgb).1.data p
          = fill_rgb) ∧
      (¬ Reach img.width img.height img.data
          (pix img.width img.data image_pos) image_pos p →
        pix img.width (fillToolActivate img image_pos fill_rgb).1.data p
          = pix img.width img.data p) := by
  have hact : fillToolActivate img image_pos fill_rgb
      = (⟨img.width, img.height,
          fillLoop img.width img.height (pix img.width img.data image_pos)
            fill_rgb (Ne.symm (Ne.symm hne))
            (img.data.set (idx img.width image_pos) fill_rgb) [image_pos]⟩,
        false) := by
    unfold fillToolActivate
    rw [if_neg (not_not_intro hb), dif_neg (Ne.symm hne)]
  rw [hact]
  intro p hp
  have hlen1 : (img.data.set (idx img.width image_pos) fill_rgb).length
      = img.width * img.height := by
    rw [List.length_set]
    exact hlen
  have hinv0 : FillInv img.width img.height
      (pix img.width img.data image_pos) fill_rgb img.data image_pos
      (img.data.set (idx img.width image_pos) fill_rgb) [image_pos]
      (fun x => x = image_pos) := by
    refine ⟨hlen1, ?_, ?_, ?_, ?_, rfl⟩
    · intro x hx
      subst hx
      exact pix_set_self hb hlen fill_rgb
    · intro x hxb hnx
      exact pix_set_ne hxb hb hnx fill_rgb
    · intro x hx
      subst hx
      exact Relation.ReflTransGen.refl
    · intro x hx
      exact List.mem_singleton.mp hx
  have hfront0 : ∀ x : Pt, x = image_pos → x ∉ [image_pos] →
      ∀ m ∈ nbrs x, inBounds img.width img.height m →
        pix img.width img.data m = pix img.width img.data image_pos →
        m = image_pos := by
    intro x hx hnx
    exact absurd (List.mem_singleton.mpr hx) hnx
  exact fillLoop_spec hne hb
    (5 * (img.data.set (idx img.width image_pos) fill_rgb).countP
        (· == pix img.width img.data image_pos) + 1)
    (img.data.set (idx img.width image_pos) fill_rgb) [image_pos]
    (fun x => x = image_pos) (Nat.le_refl _) hinv0 hfront0 p hp

theorem fill_recolors_exactly_component_witness :
    ([5, 5, 5, 5] : List Nat).length = 2 * 2 ∧
    inBounds 2 2 ((0 : Int), (0 : Int)) ∧
    (9 : Nat) ≠ pix 2 [5, 5, 5, 5] ((0 : Int), (0 : Int)) ∧
    (∀ p, inBounds 2 2 p →
      (Reach 2 2 [5, 5, 5, 5] (pix 2 [5, 5, 5, 5] (0, 0)) (0, 0) p →
        pix 2 (fillToolActivate ⟨2, 2, [5, 5, 5, 5]⟩ (0, 0) 9).1.data p = 9) ∧
      (¬ Reach 2 2 [5, 5, 5, 5] (pix 2 [5, 5, 5, 5] (0, 0)) (0, 0) p →
        pix 2 (fillToolActivate ⟨2, 2, [5, 5, 5, 5]⟩ (0, 0) 9).1.data p
          = pix 2 [5, 5, 5, 5] p)) :=
  ⟨rfl, by decide, by decide,
    fill_recolors_exactly_component ⟨2, 2, [5, 5, 5, 5]⟩ (0, 0) 9 rfl
      (by decide) (by decide)⟩

/-- C9: the two degenerate Fill activations are silent no-ops: an activation
point outside the buffer bounds, or one whose word already equals the fill
word, leaves the buffer unchanged byte-for-byte and returns with the tool
deactivated (_drawing false). -/
theorem fill_noop_on_bounds_or_same_color (img : Image) (image_pos : Pt)
    (fill_rgb : Nat)
    (h : ¬ inBounds img.width img.height image_pos ∨
      pix img.width img.data image_pos = fill_rgb) :
    fillToolActivate img image_pos fill_rgb = (img, false) := by
  unfold fillToolActivate
  rcases h with h | h
  · rw [if_pos h]
  · by_cases hb : inBounds img.width img.height image_pos
    · rw [if_neg (not_not_intro hb), dif_pos h]
    · rw [if_pos hb]

theorem fill_noop_on_bounds_or_same_color_witness :
    (¬ inBounds 2 2 ((5 : Int), (0 : Int)) ∨
      pix 2 [5, 5, 5, 5] ((5 : Int), (0 : Int)) = 9) ∧
    fillToolActivate ⟨2, 2, [5, 5, 5, 5]⟩ (5, 0) 9
      = (⟨2, 2, [5, 5, 5, 5]⟩, false) :=
  ⟨Or.inl (by decide),
    fill_noop_on_bounds_or_same_color ⟨2, 2, [5, 5, 5, 5]⟩ (5, 0) 9
      (Or.inl (by decide))⟩

end FillCorrectness

end FillTool

end AIPaint
